import Mathlib

/-!
Shallow embedding of the LSB steganography codec from `src/main.py`
(class `Steganography`, methods `encode_message` and `decode_message`).

A pixel buffer is modelled as a `List Nat` of 8-bit samples (the flattened
numpy array), and a payload as a `List Nat` of character codes.  The
file-format and I/O parts of the Python functions are out of scope; the
embedding covers the codec core: terminator appending, bit conversion,
capacity check, LSB embedding, LSB extraction and the bounded decode scan.
-/

set_option maxRecDepth 8000

namespace Stego

/-- The end-of-message delimiter appended by the encoder, the character codes
of the Python literal `"<<<END>>>"`. -/
def terminator : List Nat := [60, 60, 60, 69, 78, 68, 62, 62, 62]

/-- Binary digits of `n`, most significant first, with no leading zeros
(Python `format(n, 'b')`, except that `0` gives `[]` here and is padded to
`00000000` by `format08b` below, which agrees with `format(0, '08b')`).
The first argument is recursion fuel; `n` itself is always enough fuel
because the value halves at each step. -/
def natBitsAux : Nat → Nat → List Nat
  | 0, _ => []
  | _, 0 => []
  | fuel + 1, n + 1 => natBitsAux fuel ((n + 1) / 2) ++ [(n + 1) % 2]

/-- Python `format(n, '08b')`: binary digits of `n` left-padded with zeros
to width (at least) 8. -/
def format08b (n : Nat) : List Nat :=
  List.replicate (8 - (natBitsAux n n).length) 0 ++ natBitsAux n n

/-- Python `''.join(format(ord(char), '08b') for char in message)`. -/
def binaryMessage (msg : List Nat) : List Nat :=
  (msg.map format08b).flatten

/-- Result of `Steganography.encode_message` (codec core): either the encoded
sample buffer, or the capacity failure (`ValueError("Message too long...")`). -/
inductive EncodeResult where
  | Success (buffer : List Nat)
  | PayloadTooLarge
deriving DecidableEq

/-- The embedding loop
`for i in range(len(binary_message)): flat_img[i] = (flat_img[i] & 0xFE) | bit`:
each leading sample gets the corresponding message bit in its LSB, samples
past the end of the bit sequence are left unchanged. -/
def embedBits : List Nat → List Nat → List Nat
  | buf, [] => buf
  | [], _ :: _ => []
  | x :: buf, b :: bits => ((x &&& 0xFE) ||| b) :: embedBits buf bits

/-- Codec core of `Steganography.encode_message`: append the terminator,
convert to bits, check capacity (`len(binary_message) > max_capacity`),
embed into the LSBs. -/
def encode_message (buffer : List Nat) (message : List Nat) : EncodeResult :=
  let extended := message ++ terminator
  let binary := binaryMessage extended
  if binary.length > buffer.length then EncodeResult.PayloadTooLarge
  else EncodeResult.Success (embedBits buffer binary)

/-- Result of `Steganography.decode_message` (codec core): the three
`return` statements of the Python function. -/
inductive DecodeResult where
  | Found (message : List Nat)
  | PartialMatch (preview : List Nat)
  | NoMessageFound
deriving DecidableEq

/-- Python `int(byte, 2)` for a list of bits (most significant first). -/
def bitsToNat (bits : List Nat) : Nat :=
  bits.foldl (fun a b => 2 * a + b) 0

/-- Python `32 <= char_code <= 126 or char_code in [9, 10, 13]`. -/
def isAccepted (c : Nat) : Bool :=
  decide ((32 ≤ c ∧ c ≤ 126) ∨ c = 9 ∨ c = 10 ∨ c = 13)

/-- Python `str.isalpha` restricted to single-byte characters: the decode
scan only ever tests characters `chr(c)` with `c` in the accepted set, all
of which are ASCII, where `isalpha` means a Latin letter. -/
def isAlpha (c : Nat) : Bool :=
  decide ((65 ≤ c ∧ c ≤ 90) ∨ (97 ≤ c ∧ c ≤ 122))

/-- Python `delimiter_search[-20:]` applied under the guard
`if len(delimiter_search) > 20`: keep only the last 20 characters. -/
def windowOf (w : List Nat) : List Nat :=
  if 20 < w.length then w.drop (w.length - 20) else w

/-- Python substring test `pat in s`: some index of `s` starts with `pat`. -/
def containsSub (pat s : List Nat) : Bool :=
  (List.range (s.length + 1)).any (fun i => pat.isPrefixOf (s.drop i))

/-- Downward search used to model Python `str.rfind`: try start indices
from `i` down to `0`, returning the first (hence highest) index where
`pat` occurs. -/
def rfindFrom (pat s : List Nat) : Nat → Option Nat
  | 0 => if pat.isPrefixOf s then some 0 else none
  | i + 1 => if pat.isPrefixOf (s.drop (i + 1)) then some (i + 1) else rfindFrom pat s i

/-- Python `s.rfind(pat)`: highest start index of an occurrence of `pat`
in `s` (`none` for Python's `-1`). -/
def rfindSub (pat s : List Nat) : Option Nat :=
  rfindFrom pat s s.length

/-- The post-loop classification of `decode_message`:
`if len(message) > 5 and any(c.isalpha() for c in message)` report the
partial match with preview `message[:50]`, else report no message. -/
def postScan (message : List Nat) : DecodeResult :=
  if 5 < message.length ∧ message.any isAlpha then
    DecodeResult.PartialMatch (message.take 50)
  else DecodeResult.NoMessageFound

/-- The byte slices `binary_message[i:i+8]` for `i in range(0, min(len, 10000), 8)`
are the consecutive 8-bit chunks of the first 10000 bits, the final chunk
possibly shorter (the caller passes the bits already truncated to 10000). -/
def toChunks : List Nat → List (List Nat)
  | b1 :: b2 :: b3 :: b4 :: b5 :: b6 :: b7 :: b8 :: rest =>
      [b1, b2, b3, b4, b5, b6, b7, b8] :: toChunks rest
  | [] => []
  | l => [l]

/-- The decode scan loop of `decode_message`, one step per byte slice:
skip short slices, test plausibility, append accepted characters to the
running message and the 20-character delimiter window, check the window for
the terminator (returning everything before its last occurrence in the
running message), break to the post-loop classification on a disqualifying
byte seen before 10 accepted characters, and fall through to the same
classification when the slices run out. -/
def scanLoop : List (List Nat) → List Nat → List Nat → DecodeResult
  | [], message, _ => postScan message
  | byte :: rest, message, ds =>
    if byte.length = 8 then
      let c := bitsToNat byte
      if isAccepted c then
        let message' := message ++ [c]
        let ds' := windowOf (ds ++ [c])
        if containsSub terminator ds' then
          match rfindSub terminator message' with
          | some pos => DecodeResult.Found (message'.take pos)
          | none => scanLoop rest message' ds'
        else scanLoop rest message' ds'
      else
        if message.length < 10 then postScan message
        else scanLoop rest message ds
    else scanLoop rest message ds

/-- Codec core of `Steganography.decode_message`: extract every sample's
LSB, scan the first 10000 bits in 8-bit groups. -/
def decode_message (buffer : List Nat) : DecodeResult :=
  scanLoop (toChunks ((buffer.map (fun pixel => pixel &&& 1)).take 10000)) [] []

/-- Specification-side restatement of the bit conversion: each byte expands,
most-significant-bit first, into exactly 8 bits. -/
def msbFirstBits (c : Nat) : List Nat :=
  (List.range 8).map (fun k => c / 2 ^ (7 - k) % 2)

/-! ### Facts about single bytes, established by exhausting the 256 values -/

lemma format08b_length {c : Nat} (h : c < 256) : (format08b c).length = 8 := by
  revert h
  have : ∀ c < 256, (format08b c).length = 8 := by decide
  exact this c

lemma format08b_eq_msbFirstBits {c : Nat} (h : c < 256) : format08b c = msbFirstBits c := by
  revert h
  have : ∀ c < 256, format08b c = msbFirstBits c := by decide
  exact this c

lemma bitsToNat_format08b {c : Nat} (h : c < 256) : bitsToNat (format08b c) = c := by
  revert h
  have : ∀ c < 256, bitsToNat (format08b c) = c := by decide
  exact this c

lemma format08b_bits_lt {c : Nat} (h : c < 256) : ∀ b ∈ format08b c, b < 2 := by
  revert h
  have : ∀ c < 256, ∀ b ∈ format08b c, b < 2 := by decide
  exact this c

lemma isAccepted_lt {c : Nat} (h : isAccepted c = true) : c < 256 := by
  simp only [isAccepted, decide_eq_true_eq] at h
  omega

lemma embed_and_one {x b : Nat} (hx : x < 256) (hb : b < 2) :
    ((x &&& 0xFE) ||| b) &&& 1 = b := by
  revert hb
  have : ∀ x < 256, ∀ b < 2, ((x &&& 0xFE) ||| b) &&& 1 = b := by decide
  exact this x hx b

lemma embed_and_mask {x b : Nat} (hx : x < 256) (hb : b < 2) :
    ((x &&& 0xFE) ||| b) &&& 0xFE = x &&& 0xFE := by
  revert hb
  have : ∀ x < 256, ∀ b < 2, ((x &&& 0xFE) ||| b) &&& 0xFE = x &&& 0xFE := by decide
  exact this x hx b

/-! ### Bit sequences of whole messages -/

lemma binaryMessage_nil : binaryMessage [] = [] := rfl

lemma binaryMessage_cons (c : Nat) (l : List Nat) :
    binaryMessage (c :: l) = format08b c ++ binaryMessage l := by
  simp [binaryMessage]

lemma binaryMessage_append (l₁ l₂ : List Nat) :
    binaryMessage (l₁ ++ l₂) = binaryMessage l₁ ++ binaryMessage l₂ := by
  simp [binaryMessage]

lemma binaryMessage_length {l : List Nat} (h : ∀ c ∈ l, c < 256) :
    (binaryMessage l).length = 8 * l.length := by
  induction l with
  | nil => rfl
  | cons c l ih =>
    rw [binaryMessage_cons, List.length_append,
      format08b_length (h c (List.mem_cons_self c l)),
      ih (fun x hx => h x (List.mem_cons_of_mem c hx)), List.length_cons]
    ring

lemma binaryMessage_bits_lt {l : List Nat} (h : ∀ c ∈ l, c < 256) :
    ∀ b ∈ binaryMessage l, b < 2 := by
  induction l with
  | nil => simp [binaryMessage_nil]
  | cons c l ih =>
    rw [binaryMessage_cons]
    intro b hb
    rcases List.mem_append.mp hb with hb | hb
    · exact format08b_bits_lt (h c (List.mem_cons_self c l)) b hb
    · exact ih (fun x hx => h x (List.mem_cons_of_mem c hx)) b hb

/-! ### The embedding loop -/

lemma embedBits_length : ∀ (buf bits : List Nat), (embedBits buf bits).length = buf.length
  | [], [] => rfl
  | _ :: _, [] => rfl
  | [], _ :: _ => rfl
  | x :: buf, b :: bits => by
    simpa [embedBits] using embedBits_length buf bits

lemma embedBits_getElem? :
    ∀ (buf bits : List Nat) (i : Nat),
      (embedBits buf bits)[i]? =
        match bits[i]? with
        | some b => buf[i]?.map (fun x => (x &&& 0xFE) ||| b)
        | none => buf[i]?
  | [], [], i => by simp [embedBits]
  | x :: buf, [], i => by simp [embedBits]
  | [], b :: bits, i => by
    cases h : (b :: bits)[i]? <;> simp [embedBits, h]
  | x :: buf, b :: bits, 0 => by simp [embedBits]
  | x :: buf, b :: bits, i + 1 => by
    simpa [embedBits] using embedBits_getElem? buf bits i

lemma embedBits_map_lsb :
    ∀ (buf bits : List Nat), (∀ b ∈ bits, b < 2) → (∀ x ∈ buf, x < 256) →
      bits.length ≤ buf.length →
      (embedBits buf bits).map (fun x => x &&& 1) =
        bits ++ (buf.drop bits.length).map (fun x => x &&& 1)
  | [], [], _, _, _ => by simp [embedBits]
  | x :: buf, [], _, _, _ => by simp [embedBits]
  | [], b :: bits, _, _, hlen => by simp at hlen
  | x :: buf, b :: bits, hb, hx, hlen => by
    simp only [embedBits, List.map_cons, List.length_cons, List.drop_succ_cons,
      List.cons_append]
    rw [embed_and_one (hx x (List.mem_cons_self x buf)) (hb b (List.mem_cons_self b bits))]
    rw [embedBits_map_lsb buf bits (fun y hy => hb y (List.mem_cons_of_mem b hy))
      (fun y hy => hx y (List.mem_cons_of_mem x hy)) (by simpa using hlen)]

/-! ### Substring occurrences -/

lemma infix_iff_exists_drop (t s : List Nat) :
    t <:+: s ↔ ∃ i, i + t.length ≤ s.length ∧ t <+: s.drop i := by
  constructor
  · rintro ⟨u, v, rfl⟩
    refine ⟨u.length, ?_, ?_⟩
    · simp only [List.length_append]
      omega
    · rw [List.append_assoc, List.drop_left]
      exact ⟨v, rfl⟩
  · rintro ⟨i, _, v, hv⟩
    exact ⟨s.take i, v, by rw [List.append_assoc, hv, List.take_append_drop]⟩

lemma containsSub_iff (pat s : List Nat) : containsSub pat s = true ↔ pat <:+: s := by
  unfold containsSub
  rw [List.any_eq_true]
  constructor
  · rintro ⟨i, -, hp⟩
    have hp' : pat <+: s.drop i := by simpa using hp
    exact hp'.isInfix.trans (List.drop_suffix i s).isInfix
  · intro h
    rcases (infix_iff_exists_drop pat s).mp h with ⟨i, hle, hp⟩
    refine ⟨i, List.mem_range.mpr (by omega), by simpa using hp⟩

lemma not_prefix_of_length_lt {pat s : List Nat} (h : s.length < pat.length) :
    pat.isPrefixOf s = false := by
  rcases hps : pat.isPrefixOf s with _ | _
  · rfl
  · have : pat <+: s := by simpa using hps
    exact absurd this.length_le (by omega)

/-! ### The 20-character delimiter window -/

lemma windowOf_suffix (m : List Nat) : windowOf m <:+ m := by
  unfold windowOf
  split
  · exact List.drop_suffix _ m
  · exact List.suffix_refl m

lemma windowOf_of_lt {w : List Nat} (h : 20 < w.length) :
    windowOf w = w.drop (w.length - 20) := if_pos h

lemma windowOf_of_le {w : List Nat} (h : w.length ≤ 20) : windowOf w = w :=
  if_neg (by omega)

lemma windowOf_snoc (m : List Nat) (c : Nat) :
    windowOf (windowOf m ++ [c]) = windowOf (m ++ [c]) := by
  rcases le_or_lt m.length 20 with h | h
  · rw [windowOf_of_le h]
  · have h1 : windowOf m = m.drop (m.length - 20) := windowOf_of_lt h
    have hlen : (windowOf m).length = 20 := by
      rw [h1, List.length_drop]; omega
    rw [windowOf_of_lt (w := windowOf m ++ [c]) (by simp [hlen]),
      windowOf_of_lt (w := m ++ [c]) (by simp only [List.length_append, List.length_singleton]; omega)]
    have e1 : (windowOf m ++ [c]).length - 20 = 1 := by simp [hlen]
    have e2 : (m ++ [c]).length - 20 = m.length - 19 := by
      simp only [List.length_append, List.length_singleton]
      omega
    rw [e1, e2, h1,
      List.drop_append_of_le_length (by rw [List.length_drop]; omega),
      List.drop_append_of_le_length (by omega), List.drop_drop]
    congr 2
    omega

lemma suffix_windowOf {t m : List Nat} (hlen : t.length ≤ 20) (h : t <:+ m) :
    t <:+ windowOf m := by
  unfold windowOf
  split
  · next hm =>
    refine List.suffix_of_suffix_length_le h (List.drop_suffix _ m) ?_
    rw [List.length_drop]
    omega
  · exact h

/-! ### Python rfind -/

lemma rfindFrom_eq_some {pat s : List Nat} {k : Nat} :
    ∀ i, k ≤ i → pat.isPrefixOf (s.drop k) = true →
      (∀ j, k < j → j ≤ i → pat.isPrefixOf (s.drop j) = false) →
      rfindFrom pat s i = some k
  | 0, hki, hk, _ => by
    have hk0 : k = 0 := by omega
    subst hk0
    rw [List.drop_zero] at hk
    simp only [rfindFrom]
    rw [if_pos hk]
  | i + 1, hki, hk, hj => by
    rcases Nat.eq_or_lt_of_le hki with rfl | hlt
    · simp only [rfindFrom]
      rw [if_pos hk]
    · simp only [rfindFrom]
      rw [if_neg (by simp [hj (i + 1) (by omega) (by omega)])]
      exact rfindFrom_eq_some i (by omega) hk (fun j h1 h2 => hj j h1 (by omega))

/-- When the terminator just became a suffix of the accumulated message and
did not occur anywhere in the previous message, its last occurrence starts
exactly 9 characters from the end. -/
lemma rfindSub_last {m : List Nat} {c : Nat}
    (hsuf : terminator <:+ (m ++ [c])) :
    rfindSub terminator (m ++ [c]) = some (m.length - 8) := by
  obtain ⟨u, hu⟩ := hsuf
  have h9 : terminator.length = 9 := rfl
  have hlen : u.length + 9 = m.length + 1 := by
    have h := congrArg List.length hu
    simp only [List.length_append, h9, List.length_singleton] at h
    omega
  have hdrop : (m ++ [c]).drop u.length = terminator := by
    rw [← hu, List.drop_left]
  have hk : u.length = m.length - 8 := by omega
  unfold rfindSub
  refine rfindFrom_eq_some _ (by simp only [List.length_append, List.length_singleton]; omega) ?_ ?_
  · rw [hk] at hdrop
    rw [hdrop]
    simp
  · intro j h1 h2
    refine not_prefix_of_length_lt ?_
    rw [List.length_drop, h9]
    simp only [List.length_append, List.length_singleton] at h2 ⊢
    omega

/-! ### Chunking the bitstream into bytes -/

lemma toChunks_cons8 (c r : List Nat) (h : c.length = 8) :
    toChunks (c ++ r) = c :: toChunks r := by
  rcases c with _ | ⟨a1, c⟩
  · simp only [List.length_nil] at h; omega
  rcases c with _ | ⟨a2, c⟩
  · simp only [List.length_cons, List.length_nil] at h; omega
  rcases c with _ | ⟨a3, c⟩
  · simp only [List.length_cons, List.length_nil] at h; omega
  rcases c with _ | ⟨a4, c⟩
  · simp only [List.length_cons, List.length_nil] at h; omega
  rcases c with _ | ⟨a5, c⟩
  · simp only [List.length_cons, List.length_nil] at h; omega
  rcases c with _ | ⟨a6, c⟩
  · simp only [List.length_cons, List.length_nil] at h; omega
  rcases c with _ | ⟨a7, c⟩
  · simp only [List.length_cons, List.length_nil] at h; omega
  rcases c with _ | ⟨a8, c⟩
  · simp only [List.length_cons, List.length_nil] at h; omega
  have hc : c = [] := by
    refine List.eq_nil_of_length_eq_zero ?_
    simp only [List.length_cons] at h
    omega
  subst hc
  rfl

lemma toChunks_flatten_bytes :
    ∀ (bs : List (List Nat)) (r : List Nat), (∀ b ∈ bs, b.length = 8) →
      toChunks (bs.flatten ++ r) = bs ++ toChunks r
  | [], r, _ => by simp
  | b :: bs, r, h => by
    rw [List.flatten_cons, List.append_assoc, toChunks_cons8 b _ (h b (List.mem_cons_self b bs)),
      toChunks_flatten_bytes bs r (fun x hx => h x (List.mem_cons_of_mem b hx)),
      List.cons_append]

/-! ### The terminator has no nontrivial border, so occurrences cannot span
the payload/terminator boundary -/

lemma terminator_no_border :
    ∀ k, 1 ≤ k → k ≤ 8 → terminator.drop k ≠ terminator.take (9 - k) := by decide

lemma no_early_term {p : List Nat} (hp : ¬ terminator <:+: p) :
    ∀ i, i < p.length → ¬ terminator <+: ((p ++ terminator).drop i) := by
  intro i hi h
  rw [List.drop_append_of_le_length (le_of_lt hi)] at h
  have hk : (p.drop i).length = p.length - i := List.length_drop ..
  rcases le_or_lt 9 (p.drop i).length with h9 | h9
  · -- the occurrence lies entirely inside the payload
    obtain ⟨v, hv⟩ := h
    have ht : terminator = (p.drop i).take 9 := by
      have h1 := congrArg (List.take 9) hv
      rw [List.take_left' (show terminator.length = 9 from rfl),
        List.take_append_of_le_length h9] at h1
      exact h1
    have hpre : terminator <+: p.drop i :=
      ht ▸ ⟨(p.drop i).drop 9, List.take_append_drop ..⟩
    exact hp (hpre.isInfix.trans (List.drop_suffix i p).isInfix)
  · -- the occurrence would span the boundary: impossible, no border
    obtain ⟨v, hv⟩ := h
    have h1 : terminator = p.drop i ++ terminator.take (9 - (p.drop i).length) := by
      have h2 := congrArg (List.take 9) hv
      rw [List.take_left' (show terminator.length = 9 from rfl),
        List.take_append_eq_append_take, List.take_of_length_le (by omega)] at h2
      exact h2
    have h2 : terminator.drop (p.drop i).length = terminator.take (9 - (p.drop i).length) := by
      have h3 := congrArg (List.drop (p.drop i).length) h1
      rw [List.drop_left] at h3
      exact h3
    exact terminator_no_border (p.drop i).length (by omega) (by omega) h2

lemma no_term_in_take {p : List Nat} (hterm : ¬ terminator <:+: p) :
    ∀ k, k ≤ p.length + 8 → ¬ terminator <:+: ((p ++ terminator).take k) := by
  intro k hk hinf
  rcases (infix_iff_exists_drop _ _).mp hinf with ⟨i, hle, hpre⟩
  have h9 : terminator.length = 9 := rfl
  have hlen : ((p ++ terminator).take k).length ≤ k := by
    simp [List.length_take]
  have hpre' : terminator <+: (p ++ terminator).drop i := by
    rw [List.drop_take] at hpre
    exact hpre.trans ⟨((p ++ terminator).drop i).drop (k - i), List.take_append_drop ..⟩
  exact no_early_term hterm i (by omega) hpre'

/-! ### Running the scan through accepted characters -/

lemma scanLoop_run :
    ∀ (cs m ds : List Nat) (rest : List (List Nat)), ds = windowOf m →
      (∀ c ∈ cs, isAccepted c = true) →
      (∀ k, k ≤ cs.length → ¬ terminator <:+: (m ++ cs.take k)) →
      scanLoop (cs.map format08b ++ rest) m ds =
        scanLoop rest (m ++ cs) (windowOf (m ++ cs))
  | [], m, ds, rest, hds, _, _ => by
    subst hds
    simp
  | c :: cs, m, ds, rest, hds, hacc, hno => by
    subst hds
    have hc : isAccepted c = true := hacc c (List.mem_cons_self c cs)
    have hc256 : c < 256 := isAccepted_lt hc
    have hnotterm : ¬ terminator <:+: (m ++ [c]) := by
      have h1 := hno 1 (by simp)
      simpa using h1
    have hinf : containsSub terminator (windowOf (m ++ [c])) = false := by
      rcases hcs : containsSub terminator (windowOf (m ++ [c])) with _ | _
      · rfl
      · exact absurd (((containsSub_iff _ _).mp hcs).trans (windowOf_suffix _).isInfix)
          hnotterm
    simp only [List.map_cons, List.cons_append, scanLoop]
    rw [if_pos (format08b_length hc256), bitsToNat_format08b hc256, if_pos hc,
      windowOf_snoc, if_neg (by rw [hinf]; simp)]
    simp only [List.append_eq]
    rw [scanLoop_run cs (m ++ [c]) _ rest rfl
      (fun x hx => hacc x (List.mem_cons_of_mem c hx))
      (fun k hkle => by
        have h1 := hno (k + 1) (by simp only [List.length_cons]; omega)
        simpa [List.append_assoc] using h1)]
    simp [List.append_assoc]

/-- One scan step in which the terminator has just been completed: the byte
is accepted, the window now exhibits the terminator, and the loop returns
the accumulated message cut at the last terminator occurrence — which starts
9 characters from the end of the new message. -/
lemma scanLoop_new_term (rest : List (List Nat)) (m ds byte : List Nat)
    (hds : ds = windowOf m)
    (hlen : byte.length = 8)
    (hacc : isAccepted (bitsToNat byte) = true)
    (hsuf : terminator <:+ (m ++ [bitsToNat byte])) :
    scanLoop (byte :: rest) m ds =
      DecodeResult.Found ((m ++ [bitsToNat byte]).take (m.length - 8)) := by
  subst hds
  have hw : terminator <:+ windowOf (m ++ [bitsToNat byte]) :=
    suffix_windowOf (by decide) hsuf
  simp only [scanLoop]
  rw [if_pos hlen, if_pos hacc, windowOf_snoc,
    if_pos ((containsSub_iff _ _).mpr hw.isInfix), rfindSub_last hsuf]

/-! ### Round trip -/

lemma terminator_chars : ∀ c ∈ terminator, isAccepted c = true := by decide

lemma encode_success (buffer p : List Nat) (hp : ∀ c ∈ p, c < 256)
    (hcap : 8 * (p.length + 9) ≤ buffer.length) :
    encode_message buffer p =
      EncodeResult.Success (embedBits buffer (binaryMessage (p ++ terminator))) := by
  have hext256 : ∀ c ∈ p ++ terminator, c < 256 := by
    intro c hc
    rcases List.mem_append.mp hc with h | h
    · exact hp c h
    · exact isAccepted_lt (terminator_chars c h)
  have hbl : (binaryMessage (p ++ terminator)).length = 8 * (p.length + 9) := by
    rw [binaryMessage_length hext256, List.length_append,
      show terminator.length = 9 from rfl]
  unfold encode_message
  rw [if_neg (by omega)]

/-- Scanning the embedded bit sequence of `p ++ terminator`, followed by any
trailing bits, recovers exactly `p`. -/
lemma scan_ext_junk (p junk : List Nat)
    (hacc : ∀ c ∈ p, isAccepted c = true)
    (hterm : ¬ terminator <:+: p) :
    scanLoop (toChunks (binaryMessage (p ++ terminator) ++ junk)) [] [] =
      DecodeResult.Found p := by
  have hextacc : ∀ c ∈ p ++ terminator, isAccepted c = true := by
    intro c hc
    rcases List.mem_append.mp hc with h | h
    · exact hacc c h
    · exact terminator_chars c h
  have hext256 : ∀ c ∈ p ++ terminator, c < 256 := fun c hc => isAccepted_lt (hextacc c hc)
  have hsplit : p ++ terminator = (p ++ [60, 60, 60, 69, 78, 68, 62, 62]) ++ [62] := by
    rw [List.append_assoc]
    rfl
  have hfrontlen : (p ++ [60, 60, 60, 69, 78, 68, 62, 62]).length = p.length + 8 := by
    simp
  have hb62 : bitsToNat (format08b 62) = 62 := bitsToNat_format08b (by omega)
  rw [show binaryMessage (p ++ terminator) = ((p ++ terminator).map format08b).flatten
    from rfl]
  rw [toChunks_flatten_bytes _ _ (by
    intro b hb
    rcases List.mem_map.mp hb with ⟨c, hc, rfl⟩
    exact format08b_length (hext256 c hc))]
  rw [hsplit, List.map_append, List.append_assoc]
  simp only [List.map_cons, List.map_nil, List.singleton_append]
  rw [scanLoop_run _ [] [] _ rfl
    (by
      intro c hc
      rcases List.mem_append.mp hc with h | h
      · exact hacc c h
      · have h8 : ∀ c ∈ ([60, 60, 60, 69, 78, 68, 62, 62] : List Nat),
            isAccepted c = true := by decide
        exact h8 c h)
    (by
      intro k hkle
      rw [List.nil_append]
      have hfk : (p ++ terminator).take k = (p ++ [60, 60, 60, 69, 78, 68, 62, 62]).take k := by
        rw [hsplit]
        exact List.take_append_of_le_length hkle
      rw [← hfk]
      refine no_term_in_take hterm k ?_
      rw [hfrontlen] at hkle
      omega)]
  rw [List.nil_append, scanLoop_new_term _ _ _ _ rfl (format08b_length (by omega))
    (by rw [hb62]; decide)
    (by
      rw [hb62]
      exact ⟨p, hsplit⟩)]
  rw [hb62, hfrontlen]
  have hidx : p.length + 8 - 8 = p.length := by omega
  rw [hidx, ← hsplit, List.take_left]

lemma decode_embed (buffer p : List Nat)
    (hbuf : ∀ x ∈ buffer, x < 256)
    (hacc : ∀ c ∈ p, isAccepted c = true)
    (hterm : ¬ terminator <:+: p)
    (hcap : 8 * (p.length + 9) ≤ buffer.length)
    (hbound : 8 * (p.length + 9) ≤ 10000) :
    decode_message (embedBits buffer (binaryMessage (p ++ terminator))) =
      DecodeResult.Found p := by
  have hextacc : ∀ c ∈ p ++ terminator, isAccepted c = true := by
    intro c hc
    rcases List.mem_append.mp hc with h | h
    · exact hacc c h
    · exact terminator_chars c h
  have hext256 : ∀ c ∈ p ++ terminator, c < 256 := fun c hc => isAccepted_lt (hextacc c hc)
  have hbl : (binaryMessage (p ++ terminator)).length = 8 * (p.length + 9) := by
    rw [binaryMessage_length hext256, List.length_append,
      show terminator.length = 9 from rfl]
  unfold decode_message
  rw [embedBits_map_lsb buffer _ (binaryMessage_bits_lt hext256) hbuf (by omega),
    List.take_append_eq_append_take, List.take_of_length_le (by omega)]
  exact scan_ext_junk p _ hacc hterm

/-! ## The claims -/

/-- C1 is false as stated: the buffer of 80 zero samples holds the payload
`"\x00"` (codes `[0]`) within capacity (`8*(1+9) = 80 ≤ 80`), yet decoding
the encoded buffer returns `NoMessageFound`, not `Found [0]` — the decoded
NUL byte fails the plausibility filter before 10 bytes were accepted. -/
theorem C1_counterexample :
    (∀ x ∈ List.replicate 80 0, x ≤ 255) ∧
    8 * (([0] : List Nat).length + 9) ≤ (List.replicate 80 0 : List Nat).length ∧
    encode_message (List.replicate 80 0) [0] =
      EncodeResult.Success (embedBits (List.replicate 80 0) (binaryMessage ([0] ++ terminator))) ∧
    decode_message (embedBits (List.replicate 80 0) (binaryMessage ([0] ++ terminator))) =
      DecodeResult.NoMessageFound ∧
    decode_message (embedBits (List.replicate 80 0) (binaryMessage ([0] ++ terminator))) ≠
      DecodeResult.Found [0] := by decide

/-- C1 (amended): for every pixel buffer with samples in [0,255] and every
payload `p` of accepted characters (printable ASCII or tab/LF/CR) that does
not contain the terminator as a substring, with
`8*(len(p)+9) ≤ min(sample_count, 10000)`, decoding the buffer produced by
encoding `p` returns success with exactly `p`. -/
theorem C1_round_trip (buffer p : List Nat)
    (hbuf : ∀ x ∈ buffer, x ≤ 255)
    (hacc : ∀ c ∈ p, isAccepted c = true)
    (hterm : ¬ terminator <:+: p)
    (hcap : 8 * (p.length + 9) ≤ buffer.length)
    (hbound : 8 * (p.length + 9) ≤ 10000) :
    encode_message buffer p =
      EncodeResult.Success (embedBits buffer (binaryMessage (p ++ terminator))) ∧
    decode_message (embedBits buffer (binaryMessage (p ++ terminator))) =
      DecodeResult.Found p := by
  have hbuf' : ∀ x ∈ buffer, x < 256 := fun x hx => by
    have h1 := hbuf x hx
    omega
  exact ⟨encode_success buffer p (fun c hc => isAccepted_lt (hacc c hc)) hcap,
    decode_embed buffer p hbuf' hacc hterm hcap hbound⟩

/-- Witness for C1 (amended): 88 samples of value 200 (an even value, as in
the spec's concrete scenario), payload `"hi"` (codes `[104, 105]`),
`8*(2+9) = 88` bits. -/
theorem C1_round_trip_witness :
    encode_message (List.replicate 88 200) [104, 105] =
      EncodeResult.Success (embedBits (List.replicate 88 200)
        (binaryMessage ([104, 105] ++ terminator))) ∧
    decode_message (embedBits (List.replicate 88 200)
      (binaryMessage ([104, 105] ++ terminator))) = DecodeResult.Found [104, 105] :=
  C1_round_trip (List.replicate 88 200) [104, 105] (by decide) (by decide) (by decide)
    (by decide) (by decide)

/-- C2: for every buffer and every payload (of single-byte characters, per
the data model), encode fails with `PayloadTooLarge` iff the extended
payload's bit length `8*(len(payload)+9)` strictly exceeds the sample
count; a payload whose extended bit length equals the sample count exactly
succeeds.  (The model is pure, so the failing branch trivially performs no
mutation: in the source the `ValueError` is raised before the embedding
loop runs.) -/
theorem C2_capacity (buffer p : List Nat) (hp : ∀ c ∈ p, c < 256) :
    (encode_message buffer p = EncodeResult.PayloadTooLarge ↔
      buffer.length < 8 * (p.length + 9)) ∧
    (buffer.length = 8 * (p.length + 9) →
      encode_message buffer p =
        EncodeResult.Success (embedBits buffer (binaryMessage (p ++ terminator)))) := by
  have hext256 : ∀ c ∈ p ++ terminator, c < 256 := by
    intro c hc
    rcases List.mem_append.mp hc with h | h
    · exact hp c h
    · exact isAccepted_lt (terminator_chars c h)
  have hbl : (binaryMessage (p ++ terminator)).length = 8 * (p.length + 9) := by
    rw [binaryMessage_length hext256, List.length_append,
      show terminator.length = 9 from rfl]
  constructor
  · unfold encode_message
    rcases Nat.lt_or_ge buffer.length (8 * (p.length + 9)) with hlt | hge
    · rw [if_pos (by omega)]
      exact ⟨fun _ => hlt, fun _ => rfl⟩
    · rw [if_neg (by omega)]
      constructor
      · intro h
        simp at h
      · intro h
        omega
  · intro heq
    exact encode_success buffer p hp (by omega)

/-- Witness for C2 at the exact capacity boundary: payload `"hi"` needs
`8*(2+9) = 88` bits and the buffer has exactly 88 samples. -/
theorem C2_capacity_witness :
    (encode_message (List.replicate 88 0) [104, 105] = EncodeResult.PayloadTooLarge ↔
      (List.replicate 88 0 : List Nat).length < 8 * (([104, 105] : List Nat).length + 9)) ∧
    ((List.replicate 88 0 : List Nat).length = 8 * (([104, 105] : List Nat).length + 9) →
      encode_message (List.replicate 88 0) [104, 105] =
        EncodeResult.Success (embedBits (List.replicate 88 0)
          (binaryMessage ([104, 105] ++ terminator)))) :=
  C2_capacity (List.replicate 88 0) [104, 105] (by decide)

/-- C3: a successful encode keeps the buffer length, rewrites only the LSB
of each sample inside the embedded range — the LSB becoming the
corresponding message bit — and copies every later sample unchanged. -/
theorem C3_lsb_only (buffer p out : List Nat) (i : Nat)
    (hbuf : ∀ x ∈ buffer, x ≤ 255) (hp : ∀ c ∈ p, c < 256)
    (henc : encode_message buffer p = EncodeResult.Success out) :
    out.length = buffer.length ∧
    (match (binaryMessage (p ++ terminator))[i]? with
     | some b => out[i]?.map (fun x => x &&& 0xFE) = buffer[i]?.map (fun x => x &&& 0xFE) ∧
         out[i]?.map (fun x => x &&& 1) = some b
     | none => out[i]? = buffer[i]?) := by
  have hext256 : ∀ c ∈ p ++ terminator, c < 256 := by
    intro c hc
    rcases List.mem_append.mp hc with h | h
    · exact hp c h
    · exact isAccepted_lt (terminator_chars c h)
  unfold encode_message at henc
  rcases Nat.lt_or_ge buffer.length (binaryMessage (p ++ terminator)).length with hlt | hge
  · rw [if_pos (by omega)] at henc
    simp at henc
  · rw [if_neg (by omega)] at henc
    have hout : out = embedBits buffer (binaryMessage (p ++ terminator)) := by
      cases henc
      rfl
    subst hout
    refine ⟨embedBits_length _ _, ?_⟩
    rw [embedBits_getElem?]
    cases hb : (binaryMessage (p ++ terminator))[i]? with
    | none => simp [hb]
    | some b =>
      simp only [hb]
      obtain ⟨hib, -⟩ := List.getElem?_eq_some_iff.mp hb
      have hibuf : i < buffer.length := lt_of_lt_of_le hib hge
      have hx : buffer[i]? = some buffer[i] := List.getElem?_eq_getElem hibuf
      have hx256 : buffer[i] < 256 := by
        have h1 := hbuf buffer[i] (List.getElem_mem hibuf)
        omega
      have hb2 : b < 2 :=
        binaryMessage_bits_lt hext256 b (List.getElem?_mem hb)
      rw [hx]
      constructor
      · simp only [Option.map_some']
        rw [embed_and_mask hx256 hb2]
      · simp only [Option.map_some']
        rw [embed_and_one hx256 hb2]

/-- Witness for C3: the empty payload embedded into 80 samples of value 255,
inspected at sample index 0 (inside the embedded range). -/
theorem C3_lsb_only_witness :
    (embedBits (List.replicate 80 255) (binaryMessage ([] ++ terminator))).length =
      (List.replicate 80 255 : List Nat).length ∧
    (match (binaryMessage ([] ++ terminator))[0]? with
     | some b =>
         (embedBits (List.replicate 80 255) (binaryMessage ([] ++ terminator)))[0]?.map
             (fun x => x &&& 0xFE) =
           (List.replicate 80 255 : List Nat)[0]?.map (fun x => x &&& 0xFE) ∧
         (embedBits (List.replicate 80 255) (binaryMessage ([] ++ terminator)))[0]?.map
             (fun x => x &&& 1) = some b
     | none =>
         (embedBits (List.replicate 80 255) (binaryMessage ([] ++ terminator)))[0]? =
           (List.replicate 80 255 : List Nat)[0]?) :=
  C3_lsb_only (List.replicate 80 255) [] _ 0 (by decide) (by decide) (by decide)

/-- C4 is false as stated: this 56-sample buffer decodes to the six letters
`"abcdef"` followed by a NUL byte; the NUL is a disqualifying byte met with
only 6 < 10 accepted bytes, yet decode returns `PartialMatch`, not
`NoMessageFound` — the `break` falls through to the post-scan
classification, which sees more than 5 characters with letters. -/
theorem C4_counterexample :
    decode_message [0, 1, 1, 0, 0, 0, 0, 1, 0, 1, 1, 0, 0, 0, 1, 0, 0, 1, 1, 0, 0, 0, 1, 1,
        0, 1, 1, 0, 0, 1, 0, 0, 0, 1, 1, 0, 0, 1, 0, 1, 0, 1, 1, 0, 0, 1, 1, 0,
        0, 0, 0, 0, 0, 0, 0, 0] =
      DecodeResult.PartialMatch [97, 98, 99, 100, 101, 102] ∧
    decode_message [0, 1, 1, 0, 0, 0, 0, 1, 0, 1, 1, 0, 0, 0, 1, 0, 0, 1, 1, 0, 0, 0, 1, 1,
        0, 1, 1, 0, 0, 1, 0, 0, 0, 1, 1, 0, 0, 1, 0, 1, 0, 1, 1, 0, 0, 1, 1, 0,
        0, 0, 0, 0, 0, 0, 0, 0] ≠
      DecodeResult.NoMessageFound := by decide

/-- C4 (amended): when the decode scan meets a byte outside the accepted set
while fewer than 10 bytes have been accepted, it aborts the scan immediately
(the remaining byte slices are never examined) and decode returns the
post-scan classification of the message accumulated so far — which is
`NoMessageFound` unless that message already has more than 5 characters
including a letter, in which case it is `PartialMatch`. -/
theorem C4_early_abort (byte m ds : List Nat) (rest : List (List Nat))
    (hlen : byte.length = 8)
    (hbad : isAccepted (bitsToNat byte) = false)
    (hfew : m.length < 10) :
    scanLoop (byte :: rest) m ds = postScan m := by
  simp only [scanLoop]
  rw [if_pos hlen, if_neg (by simp [hbad]), if_pos hfew]

/-- Witness for C4 (amended): a NUL byte after the six accepted characters
`"abcdef"`. -/
theorem C4_early_abort_witness :
    scanLoop [[0, 0, 0, 0, 0, 0, 0, 0]] [97, 98, 99, 100, 101, 102]
        [97, 98, 99, 100, 101, 102] =
      postScan [97, 98, 99, 100, 101, 102] :=
  C4_early_abort _ _ _ _ (by decide) (by decide) (by decide)

/-- C5: when the scan ends without having found the terminator, decode
returns `PartialMatch` with a preview of the first 50 accepted characters
iff the accumulated message has more than 5 accepted characters and
contains at least one alphabetic character, and `NoMessageFound`
otherwise. -/
theorem C5_post_scan (m ds : List Nat) :
    scanLoop [] m ds =
      if 5 < m.length ∧ ∃ c ∈ m, isAlpha c = true then
        DecodeResult.PartialMatch (m.take 50)
      else DecodeResult.NoMessageFound := by
  show postScan m = _
  unfold postScan
  by_cases h : 5 < m.length ∧ m.any isAlpha = true
  · rw [if_pos h, if_pos ⟨h.1, by simpa using h.2⟩]
  · rw [if_neg h, if_neg (fun hc => h ⟨hc.1, by simpa using hc.2⟩)]

/-- C6: the first time the 20-character window contains the terminator —
the accumulated message did not contain it before, and the window does after
accepting the current byte — decode immediately returns `Found` with the
portion of the accumulated message strictly before the last terminator
occurrence (which starts 9 characters from the end); the terminator is not
part of the returned payload, and the result does not depend on the
remaining byte slices. -/
theorem C6_terminator_found (rest : List (List Nat)) (message ds byte : List Nat)
    (hds : ds = windowOf message)
    (hlen : byte.length = 8)
    (hacc : isAccepted (bitsToNat byte) = true)
    (hnew : terminator <:+: windowOf (message ++ [bitsToNat byte]))
    (hold : ¬ terminator <:+: message) :
    rfindSub terminator (message ++ [bitsToNat byte]) = some (message.length - 8) ∧
    scanLoop (byte :: rest) message ds =
      DecodeResult.Found ((message ++ [bitsToNat byte]).take (message.length - 8)) ∧
    ¬ terminator <:+: ((message ++ [bitsToNat byte]).take (message.length - 8)) := by
  have hinf : terminator <:+: (message ++ [bitsToNat byte]) :=
    hnew.trans (windowOf_suffix _).isInfix
  have hsuf : terminator <:+ (message ++ [bitsToNat byte]) := by
    rcases hinf with ⟨u, v, huv⟩
    rcases List.eq_nil_or_concat v with rfl | ⟨v', cv, rfl⟩
    · exact ⟨u, by simpa using huv⟩
    · exfalso
      rw [List.concat_eq_append, ← List.append_assoc] at huv
      obtain ⟨h1, -⟩ := List.append_inj' huv rfl
      exact hold ⟨u, v', h1⟩
  refine ⟨rfindSub_last hsuf, scanLoop_new_term rest message ds byte hds hlen hacc hsuf, ?_⟩
  intro hcontra
  rw [List.take_append_of_le_length (by omega)] at hcontra
  have hpre : message.take (message.length - 8) <+: message :=
    ⟨message.drop (message.length - 8), List.take_append_drop _ _⟩
  exact hold (hcontra.trans hpre.isInfix)

/-- Witness for C6: the message so far holds the first 8 terminator
characters and the byte `00111110` decodes to the final `'>'` (62). -/
theorem C6_terminator_found_witness :
    rfindSub terminator
        ([60, 60, 60, 69, 78, 68, 62, 62] ++ [bitsToNat [0, 0, 1, 1, 1, 1, 1, 0]]) =
      some (([60, 60, 60, 69, 78, 68, 62, 62] : List Nat).length - 8) ∧
    scanLoop [[0, 0, 1, 1, 1, 1, 1, 0]] [60, 60, 60, 69, 78, 68, 62, 62]
        [60, 60, 60, 69, 78, 68, 62, 62] =
      DecodeResult.Found
        (([60, 60, 60, 69, 78, 68, 62, 62] ++ [bitsToNat [0, 0, 1, 1, 1, 1, 1, 0]]).take
          (([60, 60, 60, 69, 78, 68, 62, 62] : List Nat).length - 8)) ∧
    ¬ terminator <:+:
        (([60, 60, 60, 69, 78, 68, 62, 62] ++ [bitsToNat [0, 0, 1, 1, 1, 1, 1, 0]]).take
          (([60, 60, 60, 69, 78, 68, 62, 62] : List Nat).length - 8)) :=
  C6_terminator_found [] [60, 60, 60, 69, 78, 68, 62, 62] _ [0, 0, 1, 1, 1, 1, 1, 0]
    (by decide) (by decide) (by decide) (by decide) (by decide)

/-- C7: decode only ever reads the least-significant bits of the first
10000 samples — two buffers of length at least 10000 that agree there
decode identically. -/
theorem C7_scan_bound (b₁ b₂ : List Nat)
    (_h₁ : 10000 ≤ b₁.length) (_h₂ : 10000 ≤ b₂.length)
    (h : (b₁.map (fun pixel => pixel &&& 1)).take 10000 =
      (b₂.map (fun pixel => pixel &&& 1)).take 10000) :
    decode_message b₁ = decode_message b₂ := by
  unfold decode_message
  rw [h]

/-- Witness for C7: 10000 samples of value 0 versus 10000 samples of
value 2 — different buffers, identical LSBs. -/
theorem C7_scan_bound_witness :
    decode_message (List.replicate 10000 0) = decode_message (List.replicate 10000 2) :=
  C7_scan_bound _ _ (by rw [List.length_replicate]) (by rw [List.length_replicate])
    (by
      have e1 : (0 : Nat) &&& 1 = 0 := rfl
      have e2 : (2 : Nat) &&& 1 = 0 := rfl
      rw [List.map_replicate, List.map_replicate, e1, e2])

/-- C8: a decoded byte is accepted into the running message iff its value
is printable ASCII [32,126] or one of {9, 10, 13}; a byte outside the set
met after at least 10 accepted characters is skipped — the message and
window are unchanged and the scan continues with the remaining slices. -/
theorem C8_filter (c : Nat) (byte m ds : List Nat) (rest : List (List Nat))
    (hlen : byte.length = 8)
    (hbad : isAccepted (bitsToNat byte) = false)
    (h10 : 10 ≤ m.length) :
    scanLoop (byte :: rest) m ds = scanLoop rest m ds ∧
    (isAccepted c = true ↔ ((32 ≤ c ∧ c ≤ 126) ∨ c = 9 ∨ c = 10 ∨ c = 13)) := by
  constructor
  · simp only [scanLoop]
    rw [if_pos hlen, if_neg (by simp [hbad]), if_neg (by omega)]
  · simp [isAccepted]

/-- Witness for C8: a NUL byte skipped after ten accepted `'a'`
characters. -/
theorem C8_filter_witness :
    scanLoop [[0, 0, 0, 0, 0, 0, 0, 0]] [97, 97, 97, 97, 97, 97, 97, 97, 97, 97] [] =
      scanLoop [] [97, 97, 97, 97, 97, 97, 97, 97, 97, 97] [] ∧
    (isAccepted 97 = true ↔ ((32 ≤ 97 ∧ 97 ≤ 126) ∨ 97 = 9 ∨ 97 = 10 ∨ 97 = 13)) :=
  C8_filter 97 [0, 0, 0, 0, 0, 0, 0, 0] [97, 97, 97, 97, 97, 97, 97, 97, 97, 97] [] []
    (by decide) (by decide) (by decide)

/-- C9: encode extends the payload with the 9-byte terminator and converts
each byte of the extended payload, most-significant-bit first, into 8 bits,
giving a bit sequence of length `8*(len(payload)+9)`. -/
theorem C9_bit_conversion (p : List Nat) (hp : ∀ c ∈ p, c < 256) :
    (p ++ terminator).length = p.length + 9 ∧
    binaryMessage (p ++ terminator) = (p ++ terminator).flatMap msbFirstBits ∧
    (binaryMessage (p ++ terminator)).length = 8 * (p.length + 9) := by
  have hext256 : ∀ c ∈ p ++ terminator, c < 256 := by
    intro c hc
    rcases List.mem_append.mp hc with h | h
    · exact hp c h
    · exact isAccepted_lt (terminator_chars c h)
  refine ⟨by rw [List.length_append]; rfl, ?_, by
    rw [binaryMessage_length hext256, List.length_append,
      show terminator.length = 9 from rfl]⟩
  exact congrArg List.flatten
    (List.map_congr_left (fun c hc => format08b_eq_msbFirstBits (hext256 c hc)))

/-- Witness for C9: the payload `"hi"` (codes `[104, 105]`). -/
theorem C9_bit_conversion_witness :
    (([104, 105] : List Nat) ++ terminator).length = ([104, 105] : List Nat).length + 9 ∧
    binaryMessage ([104, 105] ++ terminator) =
      (([104, 105] : List Nat) ++ terminator).flatMap msbFirstBits ∧
    (binaryMessage ([104, 105] ++ terminator)).length =
      8 * (([104, 105] : List Nat).length + 9) :=
  C9_bit_conversion [104, 105] (by decide)

/-- C10: the codec itself accepts an empty payload (no `EmptyPayload`
rejection exists in `encode_message`): on any buffer of at least 72 samples
encoding `""` succeeds, embedding just the terminator's 72 bits, and
decoding the result returns success with the empty string. -/
theorem C10_empty_payload (buffer : List Nat)
    (hbuf : ∀ x ∈ buffer, x ≤ 255) (hlen : 72 ≤ buffer.length) :
    encode_message buffer [] =
      EncodeResult.Success (embedBits buffer (binaryMessage terminator)) ∧
    decode_message (embedBits buffer (binaryMessage terminator)) =
      DecodeResult.Found [] := by
  have h1 := encode_success buffer [] (by simp) (by simpa using hlen)
  have h2 := decode_embed buffer []
    (fun x hx => by
      have h := hbuf x hx
      omega)
    (by simp) (by decide) (by simpa using hlen) (by norm_num)
  rw [List.nil_append] at h1 h2
  exact ⟨h1, h2⟩

/-- Witness for C10: 72 samples of value 0, exactly the terminator's
capacity. -/
theorem C10_empty_payload_witness :
    encode_message (List.replicate 72 0) [] =
      EncodeResult.Success (embedBits (List.replicate 72 0) (binaryMessage terminator)) ∧
    decode_message (embedBits (List.replicate 72 0) (binaryMessage terminator)) =
      DecodeResult.Found [] :=
  C10_empty_payload _ (by decide) (by decide)

end Stego
